import Mathlib

/-!
Verification of the `flatten` utility (`src/index.ts`) against its
natural-language specification.

The development shallowly embeds the core of the program:

* the path-to-flat-name transformation (`flattenedFileName` expression in
  `runRule`),
* the exclude-rule filtering (`denyRules` loop in `runRule`),
* the per-file copy loop of `runRule` (size limit, duplicate check,
  dry-run branch, per-path error isolation), with the filesystem and the
  glob/minimatch collaborators abstracted as function parameters, and
* `parseFileSize`.

Strings are Lean `String`s, manipulated through their underlying
character lists so that every operation is structurally recursive and
kernel-evaluable; machine numbers are `Nat`; the IEEE-754 binary64
arithmetic of `parseFileSize` (`Number.parseFloat`, a float multiply and
`Math.floor`) is modelled exactly with integer arithmetic — every finite
nonnegative double is an integer multiple of `2 ^ -1074`, and `Infinity`
is an explicit `none`; fallible filesystem calls return `Except`.
-/

namespace Flatten

/-- Embedding of `sourceFile.replaceAll("_", "__")` (step 1 of the
transform in `runRule`): every underscore character is doubled. -/
def escapeUnderscores (s : List Char) : List Char :=
  s.flatMap (fun c => if c = '_' then ['_', '_'] else [c])

/-- Embedding of JavaScript `str.split(sep)` for the one-character
separator `pathSeparator` (`sep` from `node:path` is `"/"` on POSIX and
`"\\"` on Windows): splitting `""` gives `[""]`, and adjacent or leading
separators produce empty components. -/
def splitOnChar (sep : Char) : List Char → List (List Char)
  | [] => [[]]
  | c :: cs =>
    if c = sep then [] :: splitOnChar sep cs
    else
      match splitOnChar sep cs with
      | [] => [[c]]
      | h :: t => (c :: h) :: t

/-- Embedding of JavaScript `components.join("_")` (step 4 of the
transform). -/
def joinUnderscore : List (List Char) → List Char
  | [] => []
  | [x] => x
  | x :: y :: t => x ++ '_' :: joinUnderscore (y :: t)

/-- Embedding of the `flattenedFileName` expression in `runRule`,
parameterized by the platform path separator:
`escape underscores |> split(pathSeparator) |> filter(Boolean) |>
 filter(component not "node_modules" and not ".") |> join("_")`. -/
def flattenNameSep (sep : Char) (sourceFile : String) : String :=
  ⟨joinUnderscore
    (((splitOnChar sep (escapeUnderscores sourceFile.data)).filter
        (fun component => component != [])).filter
      (fun component =>
        !(component == "node_modules".data || component == ".".data)))⟩

/-- The transform on a POSIX platform, where `pathSeparator = "/"`. -/
def flattenName : String → String := flattenNameSep '/'

/-- Modelled from the spec: the component sequence of a raw source path
after dropping empty components and components that are exactly `.` or
`node_modules` (the filtering of §4.1 steps 3–4, applied to the raw,
unescaped components; claims C1/C2 compare paths this way). -/
def specFilteredComponents (s : String) : List (List Char) :=
  ((splitOnChar '/' s.data).filter (fun component => component != [])).filter
    (fun component =>
      !(component == "node_modules".data || component == ".".data))

/-- The per-file outcome vocabulary of the run (`copied`, dry-run
`would-copy`, the two skip conditions, and the caught per-path error). -/
inductive Outcome where
  | copied
  | wouldCopy
  | skippedSize
  | skippedDuplicate
  | error
deriving DecidableEq

/-- The mutable accumulators of the script: `copiedFiles`, `skippedFiles`,
`errorFiles` and `totalBytes`. The source stores
`join(targetPath, flattenedFileName)` in `copiedFiles`; since `targetPath`
is constant for a whole run, the model stores the flat name itself, which
the `includes` check compares equivalently. -/
structure RunState where
  copiedFiles : List String
  skippedFiles : List String
  errorFiles : List String
  totalBytes : Nat
deriving DecidableEq

/-- The accumulators at the start of a run. -/
def initState : RunState := ⟨[], [], [], 0⟩

/-- Embedding of the guard `if (maxFileSize && fileSize > maxFileSize)`:
`maxFileSize` is `number | null`, and both `null` and `0` are falsy, so a
limit of `0` disables the check. -/
def sizeLimitExceeded (maxFileSize : Option Nat) (fileSize : Nat) : Bool :=
  match maxFileSize with
  | none => false
  | some m => !(m == 0) && decide (fileSize > m)

/-- Embedding of one iteration of the `for (const sourceFile of
matchingFiles)` loop body in `runRule`. The filesystem collaborators are
abstracted: `size` is `statSync(...).size` (which may throw), and
`copyFails f = true` means `copyFileSync` throws for `f`. Returns the
outcome for the path together with the updated accumulators. -/
def processFile (dryRun : Bool) (maxFileSize : Option Nat)
    (size : String → Except Unit Nat) (copyFails : String → Bool)
    (st : RunState) (sourceFile : String) : Outcome × RunState :=
  match size sourceFile with
  | Except.error _ =>
    (Outcome.error, { st with errorFiles := st.errorFiles ++ [sourceFile] })
  | Except.ok fileSize =>
    if sizeLimitExceeded maxFileSize fileSize then
      (Outcome.skippedSize,
        { st with skippedFiles := st.skippedFiles ++ [sourceFile] })
    else
      let flat := flattenName sourceFile
      if st.copiedFiles.contains flat then
        (Outcome.skippedDuplicate,
          { st with skippedFiles := st.skippedFiles ++ [sourceFile] })
      else if dryRun then
        (Outcome.wouldCopy, { st with totalBytes := st.totalBytes + fileSize })
      else if copyFails sourceFile then
        (Outcome.error, { st with errorFiles := st.errorFiles ++ [sourceFile] })
      else
        (Outcome.copied,
          { st with
              totalBytes := st.totalBytes + fileSize,
              copiedFiles := st.copiedFiles ++ [flat] })

/-- The whole per-file loop of `runRule` over an already-filtered file
list, producing the outcome of every path in order together with the
final accumulators. -/
def runRuleFiles (dryRun : Bool) (maxFileSize : Option Nat)
    (size : String → Except Unit Nat) (copyFails : String → Bool)
    (st : RunState) : List String → List (String × Outcome) × RunState
  | [] => ([], st)
  | f :: fs =>
    let r := processFile dryRun maxFileSize size copyFails st f
    let rest := runRuleFiles dryRun maxFileSize size copyFails r.2 fs
    ((f, r.1) :: rest.1, rest.2)

/-- Embedding of the `denyRules` loop in `runRule`: each exclude rule in
turn filters the working set, keeping the files that do not match it.
The `minimatch` collaborator is abstracted as `minimatch`. -/
def applyDenyRules (minimatch : String → String → Bool) (denyRules : List String)
    (files : List String) : List String :=
  denyRules.foldl (fun fs rule => fs.filter (fun f => !minimatch f rule)) files

/-- Embedding of `runRule`: the glob resolution is abstracted (the caller
passes the pattern's `globSync` result as `globMatches`), the exclusion
filter is applied, and the surviving files run through the copy loop. -/
def runRule (dryRun : Bool) (maxFileSize : Option Nat)
    (size : String → Except Unit Nat) (copyFails : String → Bool)
    (minimatch : String → String → Bool) (denyRules : List String)
    (st : RunState) (globMatches : List String) :
    List (String × Outcome) × RunState :=
  runRuleFiles dryRun maxFileSize size copyFails st
    (applyDenyRules minimatch denyRules globMatches)

/-- Embedding of `copyRules.reduce((acc, rule) => acc + runRule(...))`:
the rules run in declaration order, threading the shared accumulators;
each element of `ruleFiles` is one include rule's already-excluded
surviving file list. -/
def runRules (dryRun : Bool) (maxFileSize : Option Nat)
    (size : String → Except Unit Nat) (copyFails : String → Bool)
    (st : RunState) : List (List String) → List (String × Outcome) × RunState
  | [] => ([], st)
  | l :: ls =>
    let r := runRuleFiles dryRun maxFileSize size copyFails st l
    let rest := runRules dryRun maxFileSize size copyFails r.2 ls
    (r.1 ++ rest.1, rest.2)

/-- Modelled from the spec: the first-wins duplicate policy of §4.2 step 3.
Walking the discovered paths in order with the set of already-produced
flat names, a path whose flat name was already produced is
`skipped-duplicate` and every other path is `copied`, adding its flat name
to the set. -/
def firstWinsSpec (seen : List String) : List String → List (String × Outcome)
  | [] => []
  | f :: fs =>
    if flattenName f ∈ seen then
      (f, Outcome.skippedDuplicate) :: firstWinsSpec seen fs
    else
      (f, Outcome.copied) :: firstWinsSpec (seen ++ [flattenName f]) fs

/-- Numeric value of a digit string (a regex `\d+` group). -/
def digitsVal (cs : List Char) : Nat :=
  cs.foldl (fun a c => a * 10 + (c.toNat - 48)) 0

/-- Embedding of the numeric group of `parseFileSize`'s regex
`^(\d+(?:\.\d+)?)(B|KB|MB|GB)$/i`: the maximal digit prefix, optionally
followed by a dot and a further nonempty digit group, together with the
unconsumed remainder (which the unit group must match exactly). The
matched decimal is carried as its exact value — the fraction
`numerator / denominator` — so that `Number.parseFloat`'s IEEE rounding
can be applied to it afterwards. `parseFrac` handles what follows the
maximal digit prefix and returns `(numerator, denominator, remainder)`. -/
def parseFrac (intVal : Nat) : List Char → Option (Nat × Nat × List Char)
  | [] => some (intVal, 1, [])
  | c :: rest2 =>
    if c = '.' then
      let fracPart := rest2.takeWhile Char.isDigit
      let rest3 := rest2.dropWhile Char.isDigit
      if fracPart = [] then none
      else
        some (intVal * 10 ^ fracPart.length + digitsVal fracPart,
          10 ^ fracPart.length, rest3)
    else some (intVal, 1, c :: rest2)

/-- The whole numeric group: maximal digit prefix, then the optional
fraction handled by `parseFrac`. -/
def parseNumber (cs : List Char) : Option (Nat × Nat × List Char) :=
  let intPart := cs.takeWhile Char.isDigit
  if intPart = [] then none
  else parseFrac (digitsVal intPart) (cs.dropWhile Char.isDigit)

/-- Rounding of the fraction `A / B` (with `B > 0`) to the nearest
integer, ties to even — the IEEE-754 default rounding. -/
def rnEven (A B : Nat) : Nat :=
  let q := A / B
  let r := A % B
  if 2 * r < B then q
  else if B < 2 * r then q + 1
  else if q % 2 = 0 then q else q + 1

/-- Fuel-driven binary length, kernel-evaluable (the fuel `n` always
suffices since `n < 2 ^ n`). -/
def bitlenFuel : Nat → Nat → Nat
  | 0, _ => 0
  | fuel + 1, n => if n = 0 then 0 else bitlenFuel fuel (n / 2) + 1

/-- Number of binary digits of `n` (`0` for `0`). -/
def bitlen (n : Nat) : Nat := bitlenFuel n n

/-- Embedding of `Number.parseFloat` applied to the matched decimal
`N / D` (`D > 0`): the IEEE-754 binary64 value nearest to `N / D` (ties
to even), represented exactly as `some M` with value `M / 2 ^ 1074`
(every finite nonnegative double is an integer multiple of `2 ^ -1074`);
`none` is `Infinity`. The subnormal range (including rounding up to the
smallest normal) is the `m0 ≤ 2 ^ 52` branch; otherwise the binade
`⌊log2 (N / D)⌋` is found through `bitlen` and the 53-bit significand is
rounded inside it, propagating a carry into the next binade and
overflowing to `Infinity` above the largest finite double. -/
def nearestDouble (N D : Nat) : Option Nat :=
  if N = 0 then some 0
  else
    let m0 := rnEven (N * 2 ^ 1074) D
    if m0 ≤ 2 ^ 52 then some m0
    else
      let bn := bitlen N
      let bd := bitlen D
      let geq := decide (D * 2 ^ (bn - bd) ≤ N * 2 ^ (bd - bn))
      let E := if geq then bn + 1022 - bd else bn + 1021 - bd
      let m := if E ≤ 1074 then rnEven (N * 2 ^ (1074 - E)) D
               else rnEven N (D * 2 ^ (E - 1074))
      let mE := if m = 2 ^ 53 then (2 ^ 52, E + 1) else (m, E)
      if 2045 < mE.2 then none
      else some (mE.1 * 2 ^ mE.2)

/-- Embedding of `Math.floor(parseFloat(size) * units[...])` given the
parsed double (as `nearestDouble` output) and the unit value `m`: every
unit is a power of two, so the binary64 multiplication only shifts the
exponent and is exact unless it overflows to `Infinity`, and
`Math.floor` of the finite product is a natural number
(`Math.floor(Infinity)` is `Infinity`, kept as `none`). -/
def floatMulUnitFloor (d : Option Nat) (m : Nat) : Option Nat :=
  match d with
  | none => none
  | some M =>
    if (2 ^ 53 - 1) * 2 ^ 2045 < M * m then none
    else some (M * m / 2 ^ 1074)

/-- Embedding of the unit lookup `units[unit.toUpperCase()]` with
`units = { B: 1, KB: 1024, MB: 1024², GB: 1024³ }`, the unit group being
matched case-insensitively. -/
def unitMultiplier (cs : List Char) : Option Nat :=
  let up := cs.map Char.toUpper
  if up = ['B'] then some 1
  else if up = ['K', 'B'] then some 1024
  else if up = ['M', 'B'] then some (1024 * 1024)
  else if up = ['G', 'B'] then some (1024 * 1024 * 1024)
  else none

/-- Embedding of `parseFileSize`: match the whole argument against
`^(\d+(?:\.\d+)?)(B|KB|MB|GB)$/i` and return
`Math.floor(parseFloat(size) * units[unit.toUpperCase()])` with IEEE
binary64 semantics — `some` a byte count, or `none` for an `Infinity`
result (a number the source happily returns for ≥ 309-digit inputs);
every non-matching string throws. -/
def parseFileSize (sizeStr : String) : Except String (Option Nat) :=
  match parseNumber sizeStr.data with
  | none =>
    Except.error ("Invalid file size format: " ++ sizeStr ++
      ". Use format like: 1MB, 500KB, 2GB")
  | some (num, den, rest) =>
    match unitMultiplier rest with
    | none =>
      Except.error ("Invalid file size format: " ++ sizeStr ++
        ". Use format like: 1MB, 500KB, 2GB")
    | some m => Except.ok (floatMulUnitFloor (nearestDouble num den) m)

/-- Modelled from the spec: the exact byte count `floor(value × 1024^n)`
of the claim — the decimal number taken at its exact rational value
`N / D` and multiplied by the unit factor in exact arithmetic (`Nat`
division is the floor). -/
def specExactSizeValue (N D m : Nat) : Nat := N * m / D

/-- Modelled from the spec: the accepted unit strings — `B`, `KB`, `MB`,
`GB` in every letter case. -/
def specUnitStrings : List (List Char) :=
  [['B'], ['b'],
   ['K', 'B'], ['K', 'b'], ['k', 'B'], ['k', 'b'],
   ['M', 'B'], ['M', 'b'], ['m', 'B'], ['m', 'b'],
   ['G', 'B'], ['G', 'b'], ['g', 'B'], ['g', 'b']]

/-- Modelled from the spec: the byte multiplier `1024^n` of each unit. -/
def specUnitFactor (u : List Char) : Nat :=
  if u = ['B'] ∨ u = ['b'] then 1
  else if u ∈ [['K', 'B'], ['K', 'b'], ['k', 'B'], ['k', 'b']] then 1024
  else if u ∈ [['M', 'B'], ['M', 'b'], ['m', 'B'], ['m', 'b']] then 1024 ^ 2
  else 1024 ^ 3

/-- Modelled from the spec: the numeric part of the size-limit format — a
nonempty digit string, optionally followed by a dot and another nonempty
digit string (decimal values allowed). -/
def specNumberShape (num : List Char) : Prop :=
  (num ≠ [] ∧ num.all Char.isDigit = true) ∨
  (∃ ds fs, num = ds ++ '.' :: fs ∧ ds ≠ [] ∧ fs ≠ [] ∧
    ds.all Char.isDigit = true ∧ fs.all Char.isDigit = true)

/-- C1: the claimed injectivity fails. The paths `a_/b` and `a/_b` have
different component sequences after the step-4 filtering, yet both flatten
to `a___b`: a trailing underscore of one component followed by the join
separator is indistinguishable from the separator followed by a leading
underscore of the next component. -/
theorem flattenName_collision :
    specFilteredComponents "a_/b" ≠ specFilteredComponents "a/_b" ∧
    flattenName "a_/b" = "a___b" ∧ flattenName "a/_b" = "a___b" := by
  decide

/-- C2: a `node_modules` segment does not collapse. Underscores are
escaped before the component filter runs, so the component reaching the
filter is `node__modules`, which never equals the literal `node_modules`;
the two paths `node_modules/a.js` and `a.js` are equal after the spec's
step-4 filtering yet flatten to different names. -/
theorem node_modules_segment_not_dropped :
    specFilteredComponents "node_modules/a.js" = specFilteredComponents "a.js" ∧
    flattenName "node_modules/a.js" = "node__modules_a.js" ∧
    flattenName "a.js" = "a.js" := by
  decide

/-- C8: the code splits only on the platform-native separator
(`split(pathSeparator)`), not on both `/` and the native separator. With
the Windows separator `\` the flat name of `src/index.ts` keeps its
forward slash, and with the POSIX separator `/` a backslash in a
component survives into the flat name. -/
theorem flattenName_splits_native_separator_only :
    flattenNameSep '\\' "src/index.ts" = "src/index.ts" ∧
    (flattenNameSep '\\' "src/index.ts").data.contains '/' = true ∧
    flattenNameSep '/' "a\\b/c.x" = "a\\b_c.x" := by
  decide

/-- C3: dry-run is not equivalent to a real run. The dry-run branch never
records the produced flat name in `copiedFiles`, so the duplicate check
never fires under dry-run: for two files that flatten to the same name
(`./a.js` and `a.js`, both of size 1), dry-run reports two `would-copy`
outcomes and 2 accumulated bytes, while the real run reports one `copied`
and one `skipped-duplicate` outcome and 1 byte. -/
theorem dryRun_misses_duplicates :
    (runRuleFiles true none (fun _ => Except.ok 1) (fun _ => false) initState
        ["./a.js", "a.js"]).1 =
      [("./a.js", Outcome.wouldCopy), ("a.js", Outcome.wouldCopy)] ∧
    (runRuleFiles false none (fun _ => Except.ok 1) (fun _ => false) initState
        ["./a.js", "a.js"]).1 =
      [("./a.js", Outcome.copied), ("a.js", Outcome.skippedDuplicate)] ∧
    (runRuleFiles true none (fun _ => Except.ok 1) (fun _ => false) initState
        ["./a.js", "a.js"]).2.totalBytes = 2 ∧
    (runRuleFiles false none (fun _ => Except.ok 1) (fun _ => false) initState
        ["./a.js", "a.js"]).2.totalBytes = 1 := by
  decide

/-- C6: the size-limit boundary is strictly-greater-than. With a positive
limit `L`, a file of exactly `L` bytes is not `skipped-size` (and, when it
is no duplicate and the copy succeeds, it is `copied`), while a file
larger than `L` is `skipped-size`: it is recorded in `skippedFiles` (the
run statistics) but neither `copiedFiles` nor `totalBytes` changes. -/
theorem maxFileSize_strict_boundary :
    ∀ (L n : Nat) (size : String → Except Unit Nat) (copyFails : String → Bool)
      (st : RunState) (f : String),
      0 < L → size f = Except.ok n →
      ((n = L →
        (processFile false (some L) size copyFails st f).1 ≠ Outcome.skippedSize) ∧
       (n = L → flattenName f ∉ st.copiedFiles → copyFails f = false →
        (processFile false (some L) size copyFails st f).1 = Outcome.copied) ∧
       (n > L →
        (processFile false (some L) size copyFails st f).1 = Outcome.skippedSize ∧
        (processFile false (some L) size copyFails st f).2.skippedFiles =
          st.skippedFiles ++ [f] ∧
        (processFile false (some L) size copyFails st f).2.copiedFiles =
          st.copiedFiles ∧
        (processFile false (some L) size copyFails st f).2.totalBytes =
          st.totalBytes)) := by
  intro L n size copyFails st f hL hs
  refine ⟨?_, ?_, ?_⟩
  · intro hnL
    subst hnL
    unfold processFile
    rw [hs]
    have hex : sizeLimitExceeded (some n) n = false := by
      simp [sizeLimitExceeded]
    by_cases hm : flattenName f ∈ st.copiedFiles <;>
      by_cases hc : copyFails f <;> simp [hex, hm, hc]
  · intro hnL hm hc
    subst hnL
    unfold processFile
    rw [hs]
    have hex : sizeLimitExceeded (some n) n = false := by
      simp [sizeLimitExceeded]
    simp [hex, hm, hc]
  · intro hgt
    unfold processFile
    rw [hs]
    have hex : sizeLimitExceeded (some L) n = true := by
      have h0 : L ≠ 0 := by omega
      simp [sizeLimitExceeded, h0, hgt]
    simp [hex]

/-- Instantiation of the boundary theorem at the spec's own example: with
a 1024-byte limit, a 1024-byte file is copied and a 1025-byte file is
skipped for size. -/
theorem maxFileSize_strict_boundary_witness :
    (processFile false (some 1024) (fun _ => Except.ok 1024) (fun _ => false)
        initState "a.js").1 = Outcome.copied ∧
    (processFile false (some 1024) (fun _ => Except.ok 1025) (fun _ => false)
        initState "a.js").1 = Outcome.skippedSize := by
  constructor
  · exact (maxFileSize_strict_boundary 1024 1024 (fun _ => Except.ok 1024)
      (fun _ => false) initState "a.js" (by decide) rfl).2.1 rfl (by decide) rfl
  · exact ((maxFileSize_strict_boundary 1024 1025 (fun _ => Except.ok 1025)
      (fun _ => false) initState "a.js" (by decide) rfl).2.2 (by decide)).1

/-- The exclusion loop is one big filter: a file survives `applyDenyRules`
exactly when it matches none of the exclude rules. -/
lemma applyDenyRules_eq_filter (minimatch : String → String → Bool)
    (denyRules : List String) (files : List String) :
    applyDenyRules minimatch denyRules files =
      files.filter (fun f => denyRules.all (fun rule => !minimatch f rule)) := by
  induction denyRules generalizing files with
  | nil => simp [applyDenyRules]
  | cons r rs ih =>
    simp only [applyDenyRules, List.foldl_cons] at *
    rw [ih, List.filter_filter]
    refine List.filter_congr ?_
    intro f _
    simp [Bool.and_comm]

/-- Every discovered path of a rule produces exactly one outcome, in
discovery order. -/
lemma runRuleFiles_map_fst (dryRun : Bool) (maxFileSize : Option Nat)
    (size : String → Except Unit Nat) (copyFails : String → Bool) :
    ∀ (files : List String) (st : RunState),
      ((runRuleFiles dryRun maxFileSize size copyFails st files).1).map Prod.fst =
        files := by
  intro files
  induction files with
  | nil => intro st; rfl
  | cons f fs ih => intro st; simp [runRuleFiles, ih]

/-- C5: exclusion is exhaustive and order-independent. The survivor set of
`applyDenyRules` is exactly the candidates matching no exclude rule; any
permutation of the exclude rules filters to the same list; and a file
matching some exclude rule never appears in the outcome list of the rule
at all — in particular not with outcome `copied` or `would-copy`. -/
theorem exclude_rules_exhaustive_and_commutative :
    ∀ (minimatch : String → String → Bool) (denyRules denyRules2 : List String)
      (dryRun : Bool) (maxFileSize : Option Nat)
      (size : String → Except Unit Nat) (copyFails : String → Bool)
      (st : RunState) (globMatches : List String) (f : String),
      (f ∈ applyDenyRules minimatch denyRules globMatches ↔
        f ∈ globMatches ∧ ∀ rule ∈ denyRules, minimatch f rule = false) ∧
      (denyRules.Perm denyRules2 →
        applyDenyRules minimatch denyRules globMatches =
          applyDenyRules minimatch denyRules2 globMatches) ∧
      (∀ rule ∈ denyRules, minimatch f rule = true →
        (f, Outcome.copied) ∉
          (runRule dryRun maxFileSize size copyFails minimatch denyRules st
            globMatches).1 ∧
        (f, Outcome.wouldCopy) ∉
          (runRule dryRun maxFileSize size copyFails minimatch denyRules st
            globMatches).1) := by
  intro minimatch denyRules denyRules2 dryRun maxFileSize size copyFails st
    globMatches f
  have hchar : f ∈ applyDenyRules minimatch denyRules globMatches ↔
      f ∈ globMatches ∧ ∀ rule ∈ denyRules, minimatch f rule = false := by
    rw [applyDenyRules_eq_filter, List.mem_filter]
    simp
  refine ⟨hchar, ?_, ?_⟩
  · intro hperm
    rw [applyDenyRules_eq_filter, applyDenyRules_eq_filter]
    refine List.filter_congr ?_
    intro g _
    by_cases hall : denyRules.all (fun rule => !minimatch g rule) = true
    · rw [hall]
      symm
      rw [List.all_eq_true] at hall ⊢
      exact fun rule hr => hall rule (hperm.symm.subset hr)
    · rw [Bool.not_eq_true] at hall
      rw [hall]
      symm
      rw [Bool.eq_false_iff] at hall ⊢
      intro h2
      apply hall
      rw [List.all_eq_true] at h2 ⊢
      exact fun rule hr => h2 rule (hperm.subset hr)
  · intro rule hr hmatch
    have hnot : f ∉ applyDenyRules minimatch denyRules globMatches := by
      intro hin
      have := (hchar.mp hin).2 rule hr
      rw [this] at hmatch
      exact Bool.false_ne_true hmatch
    have hfst : ∀ o : Outcome,
        (f, o) ∉ (runRule dryRun maxFileSize size copyFails minimatch denyRules
          st globMatches).1 := by
      intro o hin
      apply hnot
      have : f ∈ ((runRule dryRun maxFileSize size copyFails minimatch denyRules
          st globMatches).1).map Prod.fst := List.mem_map_of_mem Prod.fst hin
      rwa [runRule, runRuleFiles_map_fst] at this
    exact ⟨hfst Outcome.copied, hfst Outcome.wouldCopy⟩

/-- Instantiation of the exclusion theorem: with one exclude rule matching
exactly the file `a.test.js`, the survivor characterization, the
permutation invariance (trivial permutation) and the absence of the
excluded file from the outcomes all hold on concrete data. -/
theorem exclude_rules_witness :
    let minimatch := fun (f rule : String) => f == "a.test.js" && rule == "*.test.*"
    ("a.js" ∈ applyDenyRules minimatch ["*.test.*"] ["a.js", "a.test.js"] ↔
      "a.js" ∈ ["a.js", "a.test.js"] ∧
      ∀ rule ∈ ["*.test.*"], minimatch "a.js" rule = false) ∧
    ("a.test.js", Outcome.copied) ∉
      (runRule false none (fun _ => Except.ok 1) (fun _ => false) minimatch
        ["*.test.*"] initState ["a.js", "a.test.js"]).1 := by
  intro minimatch
  constructor
  · exact (exclude_rules_exhaustive_and_commutative minimatch ["*.test.*"]
      ["*.test.*"] false none (fun _ => Except.ok 1) (fun _ => false) initState
      ["a.js", "a.test.js"] "a.js").1
  · exact ((exclude_rules_exhaustive_and_commutative minimatch ["*.test.*"]
      ["*.test.*"] false none (fun _ => Except.ok 1) (fun _ => false) initState
      ["a.js", "a.test.js"] "a.test.js").2.2 "*.test.*" (by simp) (by decide)).1

/-- Outcomes across the whole run, rule by rule: concatenating the
per-rule outcome lists covers every discovered path, in rule order then
discovery order. -/
lemma runRules_map_fst (dryRun : Bool) (maxFileSize : Option Nat)
    (size : String → Except Unit Nat) (copyFails : String → Bool) :
    ∀ (ruleFiles : List (List String)) (st : RunState),
      ((runRules dryRun maxFileSize size copyFails st ruleFiles).1).map Prod.fst =
        ruleFiles.flatten := by
  intro ruleFiles
  induction ruleFiles with
  | nil => intro st; rfl
  | cons l ls ih =>
    intro st
    simp [runRules, List.map_append, runRuleFiles_map_fst, ih]

/-- Per-pair outcome facts: a path whose `statSync` throws gets outcome
`error`, and in a real run a path whose `copyFileSync` throws is either
skipped before any copy is attempted or gets outcome `error`. -/
lemma runRuleFiles_outcome_of_mem (dryRun : Bool) (maxFileSize : Option Nat)
    (size : String → Except Unit Nat) (copyFails : String → Bool) :
    ∀ (files : List String) (st : RunState) (p : String) (o : Outcome),
      (p, o) ∈ (runRuleFiles dryRun maxFileSize size copyFails st files).1 →
      (size p = Except.error () → o = Outcome.error) ∧
      (copyFails p = true → dryRun = false →
        o = Outcome.error ∨ o = Outcome.skippedSize ∨
          o = Outcome.skippedDuplicate) := by
  intro files
  induction files with
  | nil => intro st p o h; exact absurd h (List.not_mem_nil _)
  | cons f fs ih =>
    intro st p o hmem
    simp only [runRuleFiles, List.mem_cons] at hmem
    rcases hmem with heq | htail
    · rw [Prod.mk.injEq] at heq
      obtain ⟨hp, ho⟩ := heq
      subst hp
      constructor
      · intro herr
        rw [ho]
        unfold processFile
        rw [herr]
      · intro hcf hdr
        subst hdr
        rw [ho]
        unfold processFile
        cases hse : size p with
        | error e => simp
        | ok n =>
          by_cases hex : sizeLimitExceeded maxFileSize n <;>
            by_cases hm : flattenName p ∈ st.copiedFiles <;>
            simp [hex, hm, hcf]
    · exact ih _ p o htail

/-- A failing copy — reached with a successful size read within the
limit, no duplicate, and dry-run off, so that `copyFileSync` really runs
and throws — yields outcome `error` for that path only: `errorFiles`
gains the path and no other accumulator changes. -/
lemma processFile_copy_failure (maxFileSize : Option Nat)
    (size : String → Except Unit Nat) (copyFails : String → Bool)
    (st : RunState) (p : String) (n : Nat) (hn : size p = Except.ok n)
    (hex : sizeLimitExceeded maxFileSize n = false)
    (hm : flattenName p ∉ st.copiedFiles) (hcf : copyFails p = true) :
    processFile false maxFileSize size copyFails st p =
      (Outcome.error, { st with errorFiles := st.errorFiles ++ [p] }) := by
  unfold processFile
  rw [hn]
  simp [hex, hm, hcf]

/-- C7: per-path error isolation. Over a whole run, every discovered path
of every rule receives exactly one outcome in order (no rule or run
aborts); a path whose size read throws gets outcome `error`; in a real
run a path whose copy throws is either skipped before any copy is
attempted (for size or as a duplicate) or gets outcome `error`; and when
the copy is actually attempted and throws, the outcome is exactly
`error`, with only `errorFiles` gaining the path. (Only real runs copy;
a dry run performs no copy that could fail.) -/
theorem per_path_error_isolation :
    ∀ (dryRun : Bool) (maxFileSize : Option Nat)
      (size : String → Except Unit Nat) (copyFails : String → Bool)
      (st : RunState) (ruleFiles : List (List String)),
      ((runRules dryRun maxFileSize size copyFails st ruleFiles).1).map Prod.fst =
        ruleFiles.flatten ∧
      (∀ p o,
        (p, o) ∈ (runRules dryRun maxFileSize size copyFails st ruleFiles).1 →
        (size p = Except.error () → o = Outcome.error) ∧
        (copyFails p = true → dryRun = false →
          o = Outcome.error ∨ o = Outcome.skippedSize ∨
            o = Outcome.skippedDuplicate)) ∧
      (∀ (st2 : RunState) (p : String) (n : Nat),
        size p = Except.ok n → sizeLimitExceeded maxFileSize n = false →
        flattenName p ∉ st2.copiedFiles → copyFails p = true →
        processFile false maxFileSize size copyFails st2 p =
          (Outcome.error, { st2 with errorFiles := st2.errorFiles ++ [p] })) := by
  intro dryRun maxFileSize size copyFails st ruleFiles
  refine ⟨runRules_map_fst dryRun maxFileSize size copyFails ruleFiles st, ?_,
    fun st2 p n hn hex hm hcf =>
      processFile_copy_failure maxFileSize size copyFails st2 p n hn hex hm hcf⟩
  induction ruleFiles generalizing st with
  | nil => intro p o h; exact absurd h (List.not_mem_nil _)
  | cons l ls ih =>
    intro p o hmem
    simp only [runRules, List.mem_append] at hmem
    rcases hmem with h | h
    · exact runRuleFiles_outcome_of_mem dryRun maxFileSize size copyFails l st
        p o h
    · exact ih _ p o h

/-- Instantiation of the isolation theorem: `statSync` throws for `bad`,
`copyFileSync` throws for `bad2`; the run still processes every path of
both rules in order, the size-error path's outcome (from the theorem) is
`error`, the copy-error path lands in the error-or-skipped disjunction,
and its actually-attempted copy gives exactly `error` with `bad2`
recorded in `errorFiles`. -/
theorem per_path_error_isolation_witness :
    let size := fun f : String =>
      if f == "bad" then (Except.error () : Except Unit Nat) else Except.ok 1
    let copyFails := fun f : String => f == "bad2"
    ((runRules false none size copyFails initState
        [["bad", "good.js"], ["bad2", "more.js"]]).1).map Prod.fst =
      ["bad", "good.js", "bad2", "more.js"] ∧
    Outcome.error = Outcome.error ∧
    (Outcome.error = Outcome.error ∨ Outcome.error = Outcome.skippedSize ∨
      Outcome.error = Outcome.skippedDuplicate) ∧
    processFile false none size copyFails initState "bad2" =
      (Outcome.error,
        { initState with errorFiles := initState.errorFiles ++ ["bad2"] }) := by
  intro size copyFails
  refine ⟨?_, ?_, ?_, ?_⟩
  · exact (per_path_error_isolation false none size copyFails initState
      [["bad", "good.js"], ["bad2", "more.js"]]).1.trans (by decide)
  · exact ((per_path_error_isolation false none size copyFails initState
      [["bad", "good.js"], ["bad2", "more.js"]]).2.1 "bad" Outcome.error
      (by decide)).1 rfl
  · exact ((per_path_error_isolation false none size copyFails initState
      [["bad", "good.js"], ["bad2", "more.js"]]).2.1 "bad2" Outcome.error
      (by decide)).2 rfl rfl
  · exact (per_path_error_isolation false none size copyFails initState
      [["bad", "good.js"], ["bad2", "more.js"]]).2.2 initState "bad2" 1 rfl rfl
      (by decide) rfl

/-- The spec-side policy only ever reports `copied` or
`skipped-duplicate`. -/
lemma firstWinsSpec_outcomes :
    ∀ (files : List String) (seen : List String) (p : String) (o : Outcome),
      (p, o) ∈ firstWinsSpec seen files →
      o = Outcome.copied ∨ o = Outcome.skippedDuplicate := by
  intro files
  induction files with
  | nil => intro seen p o h; exact absurd h (List.not_mem_nil _)
  | cons f fs ih =>
    intro seen p o h
    rw [firstWinsSpec] at h
    by_cases hdup : flattenName f ∈ seen
    · rw [if_pos hdup] at h
      rcases List.mem_cons.mp h with heq | htail
      · rw [Prod.mk.injEq] at heq
        exact Or.inr heq.2
      · exact ih seen p o htail
    · rw [if_neg hdup] at h
      rcases List.mem_cons.mp h with heq | htail
      · rw [Prod.mk.injEq] at heq
        exact Or.inl heq.2
      · exact ih (seen ++ [flattenName f]) p o htail

/-- In a real (non-dry) run in which every file's size read succeeds
within the limit and every copy succeeds, the per-file loop implements
exactly the first-wins policy, seeded with the flat names already in
`copiedFiles`. -/
lemma runRuleFiles_firstWins (maxFileSize : Option Nat)
    (size : String → Except Unit Nat) (copyFails : String → Bool) :
    ∀ (files : List String),
      (∀ f ∈ files,
        (∃ n, size f = Except.ok n ∧ sizeLimitExceeded maxFileSize n = false) ∧
        copyFails f = false) →
      ∀ st : RunState,
        (runRuleFiles false maxFileSize size copyFails st files).1 =
          firstWinsSpec st.copiedFiles files ∧
        (runRuleFiles false maxFileSize size copyFails st files).2.copiedFiles =
          st.copiedFiles ++
            ((firstWinsSpec st.copiedFiles files).filter
              (fun po => po.2 == Outcome.copied)).map
              (fun po => flattenName po.1) := by
  intro files
  induction files with
  | nil => intro _ st; simp [runRuleFiles, firstWinsSpec]
  | cons f fs ih =>
    intro h st
    obtain ⟨⟨n, hn, hex⟩, hcf⟩ := h f (by simp)
    have hrest := fun g hg => h g (List.mem_cons_of_mem f hg)
    by_cases hdup : flattenName f ∈ st.copiedFiles
    · have hpf : processFile false maxFileSize size copyFails st f =
          (Outcome.skippedDuplicate,
            { st with skippedFiles := st.skippedFiles ++ [f] }) := by
        unfold processFile
        rw [hn]
        simp [hex, hdup]
      have hih := ih hrest { st with skippedFiles := st.skippedFiles ++ [f] }
      rw [firstWinsSpec, if_pos hdup]
      simp only [runRuleFiles, hpf]
      refine ⟨?_, ?_⟩
      · rw [hih.1]
      · rw [hih.2]
        simp
    · have hpf : processFile false maxFileSize size copyFails st f =
          (Outcome.copied,
            { st with
                totalBytes := st.totalBytes + n,
                copiedFiles := st.copiedFiles ++ [flattenName f] }) := by
        unfold processFile
        rw [hn]
        simp [hex, hdup, hcf]
      have hih := ih hrest
        { st with
            totalBytes := st.totalBytes + n,
            copiedFiles := st.copiedFiles ++ [flattenName f] }
      rw [firstWinsSpec, if_neg hdup]
      simp only [runRuleFiles, hpf]
      refine ⟨?_, ?_⟩
      · rw [hih.1]
      · rw [hih.2]
        simp

/-- Processing a concatenated file list is processing the first list and
then the second from the resulting accumulators. -/
lemma runRuleFiles_append (dryRun : Bool) (maxFileSize : Option Nat)
    (size : String → Except Unit Nat) (copyFails : String → Bool) :
    ∀ (l1 l2 : List String) (st : RunState),
      runRuleFiles dryRun maxFileSize size copyFails st (l1 ++ l2) =
        ((runRuleFiles dryRun maxFileSize size copyFails st l1).1 ++
          (runRuleFiles dryRun maxFileSize size copyFails
            (runRuleFiles dryRun maxFileSize size copyFails st l1).2 l2).1,
         (runRuleFiles dryRun maxFileSize size copyFails
           (runRuleFiles dryRun maxFileSize size copyFails st l1).2 l2).2) := by
  intro l1
  induction l1 with
  | nil => intro l2 st; rfl
  | cons g gs ih =>
    intro l2 st
    simp only [List.cons_append, runRuleFiles, List.append_eq, ih]

/-- A rule-by-rule run is the per-file loop over the concatenation of the
rules' file lists: the accumulators thread through rule boundaries
unchanged. -/
lemma runRules_eq_flatten (dryRun : Bool) (maxFileSize : Option Nat)
    (size : String → Except Unit Nat) (copyFails : String → Bool) :
    ∀ (ruleFiles : List (List String)) (st : RunState),
      runRules dryRun maxFileSize size copyFails st ruleFiles =
        runRuleFiles dryRun maxFileSize size copyFails st ruleFiles.flatten := by
  intro ruleFiles
  induction ruleFiles with
  | nil => intro st; rfl
  | cons l ls ih =>
    intro st
    rw [List.flatten_cons, runRuleFiles_append]
    simp only [runRules, ih]

/-- C4: first-wins duplicate policy. In a real run whose size reads and
copies succeed (sizes within the limit), the outcome list over all rules
is exactly the first-wins policy applied to the concatenated discovery
order: the first file producing a given flat name is `copied`, every
later file producing the same flat name — in the same rule or a later
one — is `skipped-duplicate`, and no outcome is an error. -/
theorem duplicate_first_wins :
    ∀ (maxFileSize : Option Nat) (size : String → Except Unit Nat)
      (copyFails : String → Bool) (st : RunState)
      (ruleFiles : List (List String)),
      (∀ f ∈ ruleFiles.flatten,
        (∃ n, size f = Except.ok n ∧ sizeLimitExceeded maxFileSize n = false) ∧
        copyFails f = false) →
      (runRules false maxFileSize size copyFails st ruleFiles).1 =
        firstWinsSpec st.copiedFiles ruleFiles.flatten ∧
      ∀ p o, (p, o) ∈ (runRules false maxFileSize size copyFails st ruleFiles).1 →
        o ≠ Outcome.error := by
  intro maxFileSize size copyFails st ruleFiles h
  have hmain := runRuleFiles_firstWins maxFileSize size copyFails ruleFiles.flatten
    h st
  rw [runRules_eq_flatten, hmain.1]
  refine ⟨rfl, ?_⟩
  intro p o hmem hcontra
  subst hcontra
  rcases firstWinsSpec_outcomes ruleFiles.flatten st.copiedFiles p Outcome.error
    hmem with h1 | h1 <;> exact absurd h1 (by decide)

/-- Instantiation of the first-wins theorem: two include rules discover
`./a.js` then `a.js`, which flatten to the same name `a.js`; the first is
copied and the second, from the other rule, is skipped as a duplicate. -/
theorem duplicate_first_wins_witness :
    (runRules false none (fun _ => Except.ok 1) (fun _ => false) initState
        [["./a.js"], ["a.js"]]).1 =
      [("./a.js", Outcome.copied), ("a.js", Outcome.skippedDuplicate)] := by
  have h := duplicate_first_wins none (fun _ => Except.ok 1) (fun _ => false)
    initState [["./a.js"], ["a.js"]]
    (by intro f hf; exact ⟨⟨1, rfl, rfl⟩, rfl⟩)
  exact h.1.trans (by decide)

/-- `Char.ofNat` round-trips on valid code points. -/
lemma charToNat_ofNat_of_valid (n : Nat) (h : n.isValidChar) :
    (Char.ofNat n).toNat = n := by
  unfold Char.ofNat
  rw [dif_pos h]
  rfl

/-- Characters with equal code points are equal. -/
lemma char_eq_of_toNat_eq (a b : Char) (h : a.toNat = b.toNat) : a = b := by
  have ha := Char.ofNat_toNat a
  rw [h, Char.ofNat_toNat b] at ha
  exact ha.symm

/-- Inverting `Char.toUpper`: a character uppercasing to `U` is `U`
itself or the letter 32 code points above it. -/
lemma toUpper_inversion (c U L : Char) (h : Char.toUpper c = U)
    (hUL : U.toNat + 32 = L.toNat) : c = U ∨ c = L := by
  unfold Char.toUpper at h
  by_cases hc : c.toNat ≥ 97 ∧ c.toNat ≤ 122
  · right
    rw [if_pos hc] at h
    have hv : (c.toNat - 32).isValidChar := by
      left
      omega
    have hn := charToNat_ofNat_of_valid (c.toNat - 32) hv
    rw [h] at hn
    exact char_eq_of_toNat_eq c L (by omega)
  · left
    rw [if_neg hc] at h
    exact h

/-- Unpacking `map Char.toUpper` over a one-character list. -/
lemma map_toUpper_singleton (u : List Char) (x : Char)
    (h : u.map Char.toUpper = [x]) :
    ∃ a, u = [a] ∧ Char.toUpper a = x := by
  match u with
  | [] => simp at h
  | [a] =>
    simp only [List.map_cons, List.map_nil, List.cons.injEq, and_true] at h
    exact ⟨a, rfl, h⟩
  | a :: b :: t => simp at h

/-- Unpacking `map Char.toUpper` over a two-character list. -/
lemma map_toUpper_pair (u : List Char) (x y : Char)
    (h : u.map Char.toUpper = [x, y]) :
    ∃ a b, u = [a, b] ∧ Char.toUpper a = x ∧ Char.toUpper b = y := by
  match u with
  | [] => simp at h
  | [a] => simp at h
  | [a, b] =>
    simp only [List.map_cons, List.map_nil, List.cons.injEq, and_true] at h
    exact ⟨a, b, rfl, h.1, h.2⟩
  | a :: b :: c :: t => simp at h

/-- `takeWhile` runs past a prefix on which the predicate holds. -/
lemma takeWhile_append_of_all (p : Char → Bool) :
    ∀ (xs ys : List Char), xs.all p = true →
      (xs ++ ys).takeWhile p = xs ++ ys.takeWhile p := by
  intro xs
  induction xs with
  | nil => intro ys _; rfl
  | cons x xs ih =>
    intro ys h
    rw [List.all_cons, Bool.and_eq_true] at h
    rw [List.cons_append, List.takeWhile_cons_of_pos h.1, ih ys h.2,
      List.cons_append]

/-- `dropWhile` drops a prefix on which the predicate holds. -/
lemma dropWhile_append_of_all (p : Char → Bool) :
    ∀ (xs ys : List Char), xs.all p = true →
      (xs ++ ys).dropWhile p = ys.dropWhile p := by
  intro xs
  induction xs with
  | nil => intro ys _; rfl
  | cons x xs ih =>
    intro ys h
    rw [List.all_cons, Bool.and_eq_true] at h
    rw [List.cons_append, List.dropWhile_cons_of_pos h.1, ih ys h.2]

/-- The maximal digit prefix is all digits. -/
lemma all_takeWhile (p : Char → Bool) (l : List Char) :
    (l.takeWhile p).all p = true :=
  List.all_eq_true.mpr fun _ hx => List.mem_takeWhile_imp hx

/-- `parseNumber` on a digit group followed by a non-digit, non-dot
remainder consumes exactly the digit group. -/
lemma parseNumber_digits_append (ds : List Char) (c : Char) (t : List Char)
    (hds : ds ≠ []) (hall : ds.all Char.isDigit = true)
    (hc : Char.isDigit c = false) (hdot : c ≠ '.') :
    parseNumber (ds ++ c :: t) = some (digitsVal ds, 1, c :: t) := by
  simp only [parseNumber]
  rw [takeWhile_append_of_all _ _ _ hall, dropWhile_append_of_all _ _ _ hall,
    List.takeWhile_cons_of_neg (by simp [hc]),
    List.dropWhile_cons_of_neg (by simp [hc]), List.append_nil, if_neg hds]
  simp only [parseFrac, if_neg hdot]

/-- `parseNumber` on a digit group, a dot, a second digit group and a
non-digit remainder consumes exactly the number. -/
lemma parseNumber_frac_append (ds fs : List Char) (c : Char) (t : List Char)
    (hds : ds ≠ []) (hfs : fs ≠ []) (hallds : ds.all Char.isDigit = true)
    (hallfs : fs.all Char.isDigit = true) (hc : Char.isDigit c = false) :
    parseNumber (ds ++ '.' :: (fs ++ c :: t)) =
      some (digitsVal ds * 10 ^ fs.length + digitsVal fs, 10 ^ fs.length,
        c :: t) := by
  simp only [parseNumber]
  rw [takeWhile_append_of_all _ _ _ hallds, dropWhile_append_of_all _ _ _ hallds,
    List.takeWhile_cons_of_neg (by decide),
    List.dropWhile_cons_of_neg (by decide), List.append_nil, if_neg hds]
  simp only [parseFrac, if_pos rfl]
  rw [takeWhile_append_of_all _ _ _ hallfs, dropWhile_append_of_all _ _ _ hallfs,
    List.takeWhile_cons_of_neg (by simp [hc]),
    List.dropWhile_cons_of_neg (by simp [hc]), List.append_nil, if_neg hfs]
  simp

/-- Whatever `parseNumber` accepts decomposes into a well-shaped number
followed by the returned remainder. -/
lemma parseNumber_some (cs : List Char) (N D : Nat) (rest : List Char)
    (h : parseNumber cs = some (N, D, rest)) :
    ∃ num, cs = num ++ rest ∧ specNumberShape num := by
  have hsplit : cs.takeWhile Char.isDigit ++ cs.dropWhile Char.isDigit = cs :=
    List.takeWhile_append_dropWhile Char.isDigit cs
  simp only [parseNumber] at h
  by_cases h0 : cs.takeWhile Char.isDigit = []
  · rw [if_pos h0] at h
    exact absurd h (by simp)
  · rw [if_neg h0] at h
    cases hdrop : cs.dropWhile Char.isDigit with
    | nil =>
      rw [hdrop] at h
      simp only [parseFrac, Option.some.injEq, Prod.mk.injEq] at h
      refine ⟨cs.takeWhile Char.isDigit, ?_, Or.inl ⟨h0, all_takeWhile _ _⟩⟩
      rw [← h.2.2, List.append_nil]
      conv_lhs => rw [← hsplit]
      rw [hdrop, List.append_nil]
    | cons c rest2 =>
      rw [hdrop] at h
      by_cases hdot : c = '.'
      · simp only [parseFrac, if_pos hdot] at h
        by_cases hfrac : rest2.takeWhile Char.isDigit = []
        · rw [if_pos hfrac] at h
          exact absurd h (by simp)
        · rw [if_neg hfrac] at h
          rw [Option.some.injEq, Prod.mk.injEq, Prod.mk.injEq] at h
          subst hdot
          refine ⟨cs.takeWhile Char.isDigit ++ '.' :: rest2.takeWhile Char.isDigit,
            ?_, Or.inr ⟨cs.takeWhile Char.isDigit, rest2.takeWhile Char.isDigit,
              rfl, h0, hfrac, all_takeWhile _ _, all_takeWhile _ _⟩⟩
          rw [← h.2.2]
          conv_lhs => rw [← hsplit]
          rw [hdrop, List.append_assoc, List.cons_append,
            List.takeWhile_append_dropWhile]
      · simp only [parseFrac, if_neg hdot, Option.some.injEq, Prod.mk.injEq] at h
        refine ⟨cs.takeWhile Char.isDigit, ?_, Or.inl ⟨h0, all_takeWhile _ _⟩⟩
        rw [← h.2.2]
        conv_lhs => rw [← hsplit]
        rw [hdrop]

/-- The unit strings the spec names are exactly those the code's
`toUpperCase` lookup accepts, with the spec's multipliers; each starts
with a letter, so it can never be confused with the number group. -/
lemma unitMultiplier_of_spec (u : List Char) (hu : u ∈ specUnitStrings) :
    unitMultiplier u = some (specUnitFactor u) ∧
    ∃ c t, u = c :: t ∧ Char.isDigit c = false ∧ c ≠ '.' := by
  fin_cases hu <;>
    exact ⟨by decide, _, _, rfl, by decide, by decide⟩

/-- Conversely, whatever the `toUpperCase` lookup accepts is one of the
spec's unit strings, with the spec's multiplier. -/
lemma unitMultiplier_some (u : List Char) (m : Nat)
    (h : unitMultiplier u = some m) :
    u ∈ specUnitStrings ∧ m = specUnitFactor u := by
  simp only [unitMultiplier] at h
  by_cases h1 : u.map Char.toUpper = ['B']
  · rw [if_pos h1] at h
    obtain ⟨a, rfl, hta⟩ := map_toUpper_singleton u 'B' h1
    rw [Option.some.injEq] at h
    rcases toUpper_inversion a 'B' 'b' hta (by decide) with rfl | rfl <;>
      exact ⟨by decide, by rw [← h]; decide⟩
  · rw [if_neg h1] at h
    by_cases h2 : u.map Char.toUpper = ['K', 'B']
    · rw [if_pos h2] at h
      obtain ⟨a, b, rfl, hta, htb⟩ := map_toUpper_pair u 'K' 'B' h2
      rw [Option.some.injEq] at h
      rcases toUpper_inversion a 'K' 'k' hta (by decide) with rfl | rfl <;>
        rcases toUpper_inversion b 'B' 'b' htb (by decide) with rfl | rfl <;>
          exact ⟨by decide, by rw [← h]; decide⟩
    · rw [if_neg h2] at h
      by_cases h3 : u.map Char.toUpper = ['M', 'B']
      · rw [if_pos h3] at h
        obtain ⟨a, b, rfl, hta, htb⟩ := map_toUpper_pair u 'M' 'B' h3
        rw [Option.some.injEq] at h
        rcases toUpper_inversion a 'M' 'm' hta (by decide) with rfl | rfl <;>
          rcases toUpper_inversion b 'B' 'b' htb (by decide) with rfl | rfl <;>
            exact ⟨by decide, by rw [← h]; decide⟩
      · rw [if_neg h3] at h
        by_cases h4 : u.map Char.toUpper = ['G', 'B']
        · rw [if_pos h4] at h
          obtain ⟨a, b, rfl, hta, htb⟩ := map_toUpper_pair u 'G' 'B' h4
          rw [Option.some.injEq] at h
          rcases toUpper_inversion a 'G' 'g' hta (by decide) with rfl | rfl <;>
            rcases toUpper_inversion b 'B' 'b' htb (by decide) with rfl | rfl <;>
              exact ⟨by decide, by rw [← h]; decide⟩
        · rw [if_neg h4] at h
          exact absurd h (by simp)

/-- `parseFileSize` on an integer number followed by a valid unit. -/
lemma parseFileSize_digits (s : String) (ds u : List Char)
    (hdata : s.data = ds ++ u) (hds : ds ≠ [])
    (hall : ds.all Char.isDigit = true) (hu : u ∈ specUnitStrings) :
    parseFileSize s =
      Except.ok (floatMulUnitFloor (nearestDouble (digitsVal ds) 1)
        (specUnitFactor u)) := by
  obtain ⟨hum, c, t, hu_eq, hc, hdot⟩ := unitMultiplier_of_spec u hu
  subst hu_eq
  simp only [parseFileSize, hdata,
    parseNumber_digits_append ds c t hds hall hc hdot, hum]

/-- `parseFileSize` on a decimal number followed by a valid unit. -/
lemma parseFileSize_frac (s : String) (ds fs u : List Char)
    (hdata : s.data = ds ++ '.' :: (fs ++ u)) (hds : ds ≠ []) (hfs : fs ≠ [])
    (hallds : ds.all Char.isDigit = true) (hallfs : fs.all Char.isDigit = true)
    (hu : u ∈ specUnitStrings) :
    parseFileSize s =
      Except.ok (floatMulUnitFloor
        (nearestDouble (digitsVal ds * 10 ^ fs.length + digitsVal fs)
          (10 ^ fs.length))
        (specUnitFactor u)) := by
  obtain ⟨hum, c, t, hu_eq, hc, _⟩ := unitMultiplier_of_spec u hu
  subst hu_eq
  simp only [parseFileSize, hdata,
    parseNumber_frac_append ds fs c t hds hfs hallds hallfs hc, hum]

/-- Every string `parseFileSize` accepts decomposes into a well-shaped
number immediately followed by a valid unit. -/
lemma parseFileSize_ok_decomp (s : String) (v : Option Nat)
    (h : parseFileSize s = Except.ok v) :
    ∃ num u, s.data = num ++ u ∧ specNumberShape num ∧
      u ∈ specUnitStrings := by
  unfold parseFileSize at h
  cases hpn : parseNumber s.data with
  | none =>
    rw [hpn] at h
    simp at h
  | some pr =>
    obtain ⟨N, D, rest⟩ := pr
    rw [hpn] at h
    cases hum : unitMultiplier rest with
    | none =>
      simp [hum] at h
    | some m =>
      obtain ⟨num, hnum, hshape⟩ := parseNumber_some s.data N D rest hpn
      obtain ⟨humem, _⟩ := unitMultiplier_some rest m hum
      exact ⟨num, rest, hnum, hshape, humem⟩

/-- C9, amended: `parseFileSize` accepts exactly the strings made of a
decimal number immediately followed by one of the units `B`, `KB`, `MB`,
`GB` in any letter case, and throws on every other string; the returned
byte count is `Math.floor` of the IEEE binary64 rounding of the decimal
value multiplied by `1024^n` — not of the exact decimal value (the two
differ for literals beyond double precision, see the counterexample
theorem). Part 1 computes the result for an integer number, part 2 for a
decimal number, and part 3 shows that every accepted string decomposes
into such a number and unit — so the accepted language is exactly the
spec's, and parts 1–2 pin the returned value on all of it. -/
theorem parseFileSize_spec :
    (∀ (s : String) (ds u : List Char),
      s.data = ds ++ u → ds ≠ [] → ds.all Char.isDigit = true →
      u ∈ specUnitStrings →
      parseFileSize s =
        Except.ok (floatMulUnitFloor (nearestDouble (digitsVal ds) 1)
          (specUnitFactor u))) ∧
    (∀ (s : String) (ds fs u : List Char),
      s.data = ds ++ '.' :: (fs ++ u) → ds ≠ [] → fs ≠ [] →
      ds.all Char.isDigit = true → fs.all Char.isDigit = true →
      u ∈ specUnitStrings →
      parseFileSize s =
        Except.ok (floatMulUnitFloor
          (nearestDouble (digitsVal ds * 10 ^ fs.length + digitsVal fs)
            (10 ^ fs.length))
          (specUnitFactor u))) ∧
    (∀ (s : String) (v : Option Nat),
      parseFileSize s = Except.ok v →
      ∃ num u, s.data = num ++ u ∧ specNumberShape num ∧
        u ∈ specUnitStrings) :=
  ⟨parseFileSize_digits, parseFileSize_frac, parseFileSize_ok_decomp⟩

/-- C9, counterexample to the original claim: the code does not return
`floor(value × 1024^n)` of the exact decimal value. `Number.parseFloat`
rounds `0.99999999999999999` up to the double `1.0`, so the code returns
`1` where the exact formula gives `0`; and it rounds `9007199254740993`
(`2^53 + 1`) down to `2^53`, so the code returns `9007199254740992` where
the exact formula keeps `9007199254740993`. -/
theorem parseFileSize_not_exact_floor :
    parseFileSize "0.99999999999999999B" = Except.ok (some 1) ∧
    specExactSizeValue 99999999999999999 (10 ^ 17) 1 = 0 ∧
    (some 1 : Option Nat) ≠
      some (specExactSizeValue 99999999999999999 (10 ^ 17) 1) ∧
    parseFileSize "9007199254740993B" = Except.ok (some 9007199254740992) ∧
    specExactSizeValue 9007199254740993 1 1 = 9007199254740993 ∧
    (some 9007199254740992 : Option Nat) ≠
      some (specExactSizeValue 9007199254740993 1 1) := by
  refine ⟨?_, by decide, by decide, ?_, by decide, by decide⟩
  · exact (parseFileSize_frac "0.99999999999999999B" ['0']
      ['9', '9', '9', '9', '9', '9', '9', '9', '9', '9', '9', '9', '9', '9',
       '9', '9', '9'] ['B'] rfl (by decide) (by decide) (by decide) (by decide)
      (by decide)).trans
      (congrArg Except.ok (by set_option maxRecDepth 100000 in decide))
  · exact (parseFileSize_digits "9007199254740993B"
      ['9', '0', '0', '7', '1', '9', '9', '2', '5', '4', '7', '4', '0', '9',
       '9', '3'] ['B'] rfl (by decide) (by decide) (by decide)).trans
      (congrArg Except.ok (by set_option maxRecDepth 100000 in decide))

/-- Instantiation of the parsing theorem: `1MB` is 1048576 bytes, the
decimal `1.5kB` is 1536 bytes, and the accepted string `1MB` decomposes
into number and unit. -/
theorem parseFileSize_spec_witness :
    parseFileSize "1MB" = Except.ok (some 1048576) ∧
    parseFileSize "1.5kB" = Except.ok (some 1536) ∧
    ∃ num u, ("1MB").data = num ++ u ∧ specNumberShape num ∧
      u ∈ specUnitStrings := by
  have h1 : parseFileSize "1MB" = Except.ok (some 1048576) :=
    (parseFileSize_spec.1 "1MB" ['1'] ['M', 'B'] rfl (by decide) (by decide)
      (by decide)).trans
      (congrArg Except.ok (by set_option maxRecDepth 100000 in decide))
  refine ⟨h1, ?_, parseFileSize_spec.2.2 "1MB" (some 1048576) h1⟩
  exact (parseFileSize_spec.2.1 "1.5kB" ['1'] ['5'] ['k', 'B'] rfl
    (by decide) (by decide) (by decide) (by decide) (by decide)).trans
    (congrArg Except.ok (by set_option maxRecDepth 100000 in decide))

/-- C10: a configured limit of `0` disables size limiting entirely. A
`0`-byte limit behaves exactly like no limit at all (the guard
`maxFileSize && ...` is falsy for `0`), so no path ever receives the
`skipped-size` outcome; and `parseFileSize "0B"` indeed yields `0`. -/
theorem maxFileSize_zero_disables_limit :
    (∀ (dryRun : Bool) (size : String → Except Unit Nat)
      (copyFails : String → Bool) (st : RunState) (f : String),
      processFile dryRun (some 0) size copyFails st f =
        processFile dryRun none size copyFails st f ∧
      (processFile dryRun (some 0) size copyFails st f).1 ≠
        Outcome.skippedSize) ∧
    parseFileSize "0B" = Except.ok (some 0) := by
  constructor
  · intro dryRun size copyFails st f
    have h : processFile dryRun (some 0) size copyFails st f =
        processFile dryRun none size copyFails st f := by
      unfold processFile
      cases size f <;> rfl
    refine ⟨h, ?_⟩
    rw [h]
    unfold processFile
    cases size f with
    | error e => simp
    | ok n =>
      by_cases hm : flattenName f ∈ st.copiedFiles <;>
        cases dryRun <;>
        by_cases hc : copyFails f <;>
          simp [sizeLimitExceeded, hm, hc]
  · exact (parseFileSize_digits "0B" ['0'] ['B'] rfl (by decide) (by decide)
      (by decide)).trans
      (congrArg Except.ok (by set_option maxRecDepth 100000 in decide))

end Flatten

